import Mathlib

/-!
Verification development for `psage/modform/maass/inc_gamma.pyx`.

The source is a Cython module computing the incomplete Gamma function for
integer and half-integer parameters and the exponential integral Ei(x) with
MPFR arbitrary-precision arithmetic.  We embed it shallowly:

* MPFR values are dyadic rationals; inputs that only feed comparisons,
  branch selection and precision bookkeeping are modelled as `ℚ` (every
  MPFR value is a dyadic rational, so this is exact); values produced by
  transcendental primitives (`exp`, `log`, `sqrt`, `erfc`, π, the
  Euler–Mascheroni constant) live in `ℝ`.
* MPFR primitive operations are correctly rounded to the working precision;
  the spec treats them as an external capability, and we model them as the
  exact real operations.  Precision arguments are still threaded wherever
  the code reads or sets a precision, so that precision bookkeeping (which
  several claims are about) is modelled faithfully.
* `erfc` has no Mathlib counterpart and is an external primitive in the
  source (`mpfr_erfc`), so it is a parameter of the half-integer branch.
* Python exceptions (`ArithmeticError`, `NotImplementedError`) become an
  `Except` error type.
* Cython `for k in range(a, b)` loops follow Python semantics: the loop
  variable holds the value of the last executed iteration after the loop
  (Cython assigns the loop variable from a separate counter inside the
  loop body).  The Pyrex-style `for j from a <= j <= b` loops never use
  the variable after the loop here.
-/

namespace IncGamma

/-- Errors raised by the module: `ArithmeticError` (series non-convergence)
and `NotImplementedError` (negative integer parameter). -/
inductive Err where
  | arith
  | notImplemented
deriving DecidableEq, Repr

/-- Module-level iteration ceiling: `cdef int nmax = 10000`. -/
def nmax : ℕ := 10000

/-- The IEEE-754 double nearest to the literal `0.693` appearing in
`wp*0.693` (both in `ei` and in `incgamma_nint_c`): `0.693` rounds to
`6241989083535507 / 2^53`.  The later C-double product `wp*0.693` is
modelled as the exact product with this constant (its own rounding has
relative error `2^-53` and does not affect the inputs used below). -/
def d693 : ℚ := 6241989083535507 / 2 ^ 53

/-- Round to nearest, ties to even: the semantics of `mpfr_get_ui` under
`GMP_RNDN`, used to read off the inflated working precision in
`incgamma_nint_c`. -/
def rndN (q : ℚ) : ℤ :=
  if q - ⌊q⌋ = (1 : ℚ) / 2 then (if 2 ∣ ⌊q⌋ then ⌊q⌋ else ⌊q⌋ + 1) else round q

/-! ### Pochhammer symbol (`pochammer` / `_mppochammer_mpfr`, lines 539-562)

`_mppochammer_mpfr(res, a, k)`: for `k == 0` it sets `res = 1`; otherwise it
sets `res = a` and multiplies `res` by `(a + j)` for `j = 1 .. k-1` (a
Pyrex-style loop that is empty whenever `k - 1 < 1`, in particular for every
negative `k`).  `k` is a C `int`, hence modelled as `ℤ`. -/

/-- Cumulative product of the `_mppochammer_mpfr` loop: `pochProd a m`
is `res` after the iterations `j = 1 .. m`, starting from `res = a`. -/
noncomputable def pochProd (a : ℝ) : ℕ → ℝ
  | 0 => a
  | m + 1 => pochProd a m * (a + (m + 1))

/-- The public `pochammer(a, k)` (and `_mppochammer_mpfr`): `1` for `k = 0`,
otherwise `a` multiplied by `(a+1) ⋯ (a+k-1)`; for negative `k` the loop
bound `k-1` is nonpositive, the loop body never runs and the result is `a`. -/
noncomputable def pochammer (a : ℝ) (k : ℤ) : ℝ :=
  if k = 0 then 1 else pochProd a (k - 1).toNat

/-! ### The shared helper `mpfr_sqpi_erfc_sqx` (lines 331-340) and the
`n = 0` branch of `incgamma_hint_c` (lines 318-326)

Both compute `sqpi = sqrt(pi)`, take `sqrt(x)`, apply `erfc`, and multiply
by `sqpi`, all at `prec = mpfr_get_prec(x)`. -/

/-- The MPFR primitives used by `incgamma_hint_c`'s `n = 0` branch and by
`mpfr_sqpi_erfc_sqx`, each indexed by the working precision.  Abstracting
them lets us state that the two call paths perform the same sequence of
correctly-rounded operations at the same precision, hence agree bit for
bit for every implementation of the primitives. -/
structure MpfrPrims where
  const_pi : ℕ → ℝ
  sqrt : ℕ → ℝ → ℝ
  erfc : ℕ → ℝ → ℝ
  mul : ℕ → ℝ → ℝ → ℝ

/-- The `n = 0` branch of `incgamma_hint_c` over abstract primitives:
`mpfr_const_pi(sqpi); mpfr_sqrt(sqpi,sqpi); mpfr_sqrt(sqx,x);
mpfr_erfc(res,sqx); mpfr_mul(res,res,sqpi)`, all at `prec(x) = p`. -/
def incgamma_hint_zero_ops (P : MpfrPrims) (p : ℕ) (x : ℝ) : ℝ :=
  let sqpi := P.sqrt p (P.const_pi p)
  let sqx := P.sqrt p x
  let res := P.erfc p sqx
  P.mul p res sqpi

/-- `mpfr_sqpi_erfc_sqx` over abstract primitives: `mpfr_const_pi(sqpi);
mpfr_sqrt(sqpi,sqpi); mpfr_sqrt(res,x); mpfr_erfc(res,res);
mpfr_mul(res,res,sqpi)`, all at `prec(x) = p`. -/
def mpfr_sqpi_erfc_sqx_ops (P : MpfrPrims) (p : ℕ) (x : ℝ) : ℝ :=
  let sqpi := P.sqrt p (P.const_pi p)
  let res := P.sqrt p x
  let res2 := P.erfc p res
  P.mul p res2 sqpi

section HalfInteger

variable (erfc : ℝ → ℝ)

/-- `mpfr_sqpi_erfc_sqx` at the exact-value level: `erfc(sqrt x) * sqrt π`
(the final `mpfr_mul(res, res, sqpi)` multiplies in this order). -/
noncomputable def mpfr_sqpi_erfc_sqx (x : ℝ) : ℝ :=
  erfc (Real.sqrt x) * Real.sqrt Real.pi

/-! ### `incgamma_phint_c` (lines 350-416): Γ(n+1/2, x), n ≥ 0 -/

/-- First loop of `incgamma_phint_c`: after `m` iterations (`j = 0 .. m-1`)
it returns `(summa, tmp)` where each iteration does
`term := pochammer(half_m_n, n-j-1) * tmp; summa += term; tmp := -(tmp*x)`,
starting from `summa = 0`, `tmp = 1`. -/
noncomputable def phintLoop (hmn x : ℝ) (n : ℕ) : ℕ → ℝ × ℝ
  | 0 => (0, 1)
  | j + 1 =>
    let t := phintLoop hmn x n j
    (t.1 + pochammer hmn ((n : ℤ) - j - 1) * t.2, -(t.2 * x))

/-- Second loop of `incgamma_phint_c`: `tmp := 1`, then
`tmp := tmp * (2*j - 1)` for `j = 1 .. n`. -/
noncomputable def oddProd : ℕ → ℝ
  | 0 => 1
  | j + 1 => oddProd j * (2 * ((j : ℝ) + 1) - 1)

/-- The divisor actually passed to `mpfr_div_si` at line 392: the Cython
expression `2**n` is evaluated in C `long` arithmetic (64-bit two's
complement on the usual LP64 build) and wraps silently instead of being
the exact power: it equals `2^n` only for `n ≤ 62`, wraps to `-2^63` at
`n = 63`, and to `0` for `n ≥ 64`. -/
def pow2_si (n : ℕ) : ℤ := (2 ^ n + 2 ^ 63) % 2 ^ 64 - 2 ^ 63

/-- `incgamma_phint_c(res, n, x)`: `half_m_n = 1/2 - n`; the weighted sum
`summa`; the odd product; `tmp := oddProd * (sqpi_erfc_sqx(x) / 2**n)`,
where `2**n` is the wrapped C `long` power `pow2_si n` handed to
`mpfr_div_si`; `tmp2 := exp(-x) * sqrt x`, negated when `n` is even;
result `tmp2 * summa + tmp`. -/
noncomputable def incgamma_phint_c (n : ℕ) (x : ℝ) : ℝ :=
  let hmn : ℝ := 1 / 2 - n
  let summa := (phintLoop hmn x n n).1
  let tmp := oddProd n * (mpfr_sqpi_erfc_sqx erfc x / (pow2_si n : ℝ))
  let tmp2 := Real.exp (-x) * Real.sqrt x
  let tmp3 := if n % 2 = 0 then -tmp2 else tmp2
  tmp3 * summa + tmp

/-! ### `incgamma_nhint_c` (lines 427-497): Γ(-n+1/2, x), n ≥ 0 -/

/-- Loop of `incgamma_nhint_c`: `tmp` is seeded with `x^(1/2-n)` and each
iteration `j = 0 .. n-1` does `tmp2 := tmp / pochammer(half_m_n, j+1);
summa += tmp2; tmp := tmp * x`. -/
noncomputable def nhintLoop (hmn x : ℝ) : ℕ → ℝ × ℝ
  | 0 => (0, Real.rpow x hmn)
  | j + 1 =>
    let t := nhintLoop hmn x j
    (t.1 + t.2 / pochammer hmn ((j : ℤ) + 1), t.2 * x)

/-- `incgamma_nhint_c(res, n, x)`: sum loop, then
`tmp2 := sqpi_erfc_sqx(x) / pochammer(1/2, n)`, negated when `n` is odd;
`tmp3 := exp(-x)`; result `tmp2 + tmp3 * (-summa)`. -/
noncomputable def incgamma_nhint_c (n : ℕ) (x : ℝ) : ℝ :=
  let hmn : ℝ := 1 / 2 - n
  let summa := (nhintLoop hmn x n).1
  let tmp2 := mpfr_sqpi_erfc_sqx erfc x / pochammer (1 / 2) n
  let tmp3 := if n % 2 = 1 then -tmp2 else tmp2
  tmp3 + Real.exp (-x) * (-summa)

/-- `incgamma_hint_c(res, n, x)` (lines 309-326): dispatch on the sign of
`n`; the `n = 0` case computes `erfc(sqrt x) * sqrt π` inline. -/
noncomputable def incgamma_hint_c (n : ℤ) (x : ℝ) : ℝ :=
  if n > 0 then incgamma_phint_c erfc n.toNat x
  else if n < 0 then incgamma_nhint_c erfc (-n).toNat x
  else erfc (Real.sqrt x) * Real.sqrt Real.pi

/-- Public `incgamma_hint(n, x)` (lines 286-299): allocates
`res = x.parent()(0)` at `precision(x) = p` and fills it via
`incgamma_hint_c`; no branch changes the precision of `res`, so the result
carries `(p, value)`. -/
noncomputable def incgamma_hint (p : ℕ) (n : ℤ) (x : ℝ) : ℕ × ℝ :=
  (p, incgamma_hint_c erfc n x)

end HalfInteger

/-! ### `ei_asymp_c` (lines 170-211): asymptotic expansion of Ei(x)

`prec = mpfr_get_prec(x)`; `tmp = summa = 1`, `r = 1/x`,
`tmp2 = exp(x) * r`, `eps = |2^-(prec+1) / tmp2|`; then
`for k in range(1, nmax)` (so `k = 1 .. nmax-1`): `tmp := tmp * k * r;
summa += tmp; break if |tmp| < eps`.  After the loop `k` holds the value of
the last executed iteration (Python semantics), so the guard `if k >= nmax`
compares at most `nmax - 1` with `nmax`. -/

/-- The `ei_asymp_c` summation loop.  Arguments: current `tmp`, `summa`,
iteration counter `k`, remaining iterations.  Returns `(summa, k_final)`
where `k_final` is the loop variable's value after the loop: the breaking
`k`, or `k - 1` when the iterations are exhausted. -/
noncomputable def asympLoop (r eps : ℝ) : ℝ → ℝ → ℕ → ℕ → ℝ × ℕ
  | _, summa, k, 0 => (summa, k - 1)
  | tmp, summa, k, fuel + 1 =>
    let tmp2 := tmp * k * r
    let summa2 := summa + tmp2
    if |tmp2| < eps then (summa2, k) else asympLoop r eps tmp2 summa2 (k + 1) fuel

/-- `ei_asymp_c(res, x)`: runs the loop for `k = 1 .. nmax - 1`; raises
`ArithmeticError` when the final `k` is `≥ nmax`, else returns
`summa * (exp x / x)`. -/
noncomputable def ei_asymp_c (p : ℕ) (x : ℝ) : Except Err ℝ :=
  let r := 1 / x
  let tmp2 := Real.exp x * r
  let eps := |(2 : ℝ) ^ (-(p + 1 : ℤ)) / tmp2|
  let out := asympLoop r eps 1 1 1 (nmax - 1)
  if nmax ≤ out.2 then Except.error Err.arith else Except.ok (out.1 * tmp2)

/-! ### `Ei_ml_c` (lines 246-282): Taylor series for Ei(x) - ln|x|

`prec = mpfr_get_prec(x)`; `tmp = summa = x`;
`eps = 2^-(prec+20)`; `for k in range(2, nmax+1)` (so `k = 2 .. nmax`):
`tmp := tmp * (k-1); tmp := tmp / (k*k); tmp := tmp * x; summa += tmp;
break if |tmp| < eps`; `if k >= nmax: raise ArithmeticError`; else add the
Euler–Mascheroni constant.  The loop values are rational in `x`, so the
loop is modelled exactly over `ℚ` and the constant is added in `ℝ`. -/

/-- Stopping threshold of `Ei_ml_c`: `eps = 2^-(prec+20)` (the Python
float `2.0**-(prec+20)` is exactly this power of two for every precision
occurring in practice). -/
def teps (p : ℕ) : ℚ := (2 : ℚ) ^ (-(p + 20 : ℤ))

/-- One `Ei_ml_c` loop body applied to the running term:
`tmp * (k-1) / (k*k) * x`. -/
def tstep (x : ℚ) (k : ℕ) (t : ℚ) : ℚ := t * ((k - 1 : ℕ) : ℚ) / ((k * k : ℕ) : ℚ) * x

/-- The `Ei_ml_c` summation loop; returns `(summa, k_final)` with the same
loop-variable convention as `asympLoop`. -/
def taylorLoop (x eps : ℚ) : ℚ → ℚ → ℕ → ℕ → ℚ × ℕ
  | _, summa, k, 0 => (summa, k - 1)
  | tmp, summa, k, fuel + 1 =>
    let tmp2 := tstep x k tmp
    let summa2 := summa + tmp2
    if |tmp2| < eps then (summa2, k) else taylorLoop x eps tmp2 summa2 (k + 1) fuel

/-- The exact (rational) part of `Ei_ml_c`: the loop for `k = 2 .. nmax`
(`nmax - 1` iterations) seeded with `tmp = summa = x`, then the guard
`if k >= nmax: raise ArithmeticError`. -/
def Ei_ml_core (p : ℕ) (x : ℚ) : Except Err ℚ :=
  let out := taylorLoop x (teps p) x x 2 (nmax - 1)
  if nmax ≤ out.2 then Except.error Err.arith else Except.ok out.1

/-- `Ei_ml_c(res, x)`: the rational loop value plus the Euler–Mascheroni
constant at the working precision. -/
noncomputable def Ei_ml_c (p : ℕ) (x : ℚ) : Except Err ℝ :=
  (Ei_ml_core p x).map fun s => (s : ℝ) + Real.eulerMascheroniConstant

/-! ### `ei_taylor_c` (lines 223-235) and the public wrappers -/

/-- `ei_taylor_c(res, x)`: calls `Ei_ml_c(res, x)` (which may raise), then
`mpfr_abs(x, x)` — overwriting the caller's `x` slot with `|x|` — then adds
`log|x|` to `res`.  The returned pair is `(res, contents of the x slot)`. -/
noncomputable def ei_taylor_c (p : ℕ) (x : ℚ) : Except Err (ℝ × ℚ) :=
  (Ei_ml_c p x).map fun v => (v + Real.log |(x : ℝ)|, |x|)

/-- Public `ei_taylor(x)` (lines 237-244): passes the caller's `x.value`
directly to `ei_taylor_c`, so the in-place `mpfr_abs` hits the caller's
argument; the second component is what the caller's `x` holds afterwards. -/
noncomputable def ei_taylor (p : ℕ) (x : ℚ) : Except Err (ℝ × ℚ) :=
  ei_taylor_c p x

/-- Working precision of the Ei engine: `wp = prec + 20`. -/
def wp (p : ℕ) : ℕ := p + 20

/-- The regime threshold computed in `ei` (line 149):
`rh = RF_orig(wp*0.693).integer_part() + 10`, i.e. the double product
truncated toward zero (it is positive, hence the floor), plus 10.  The
conversion to `RF_orig` is exact for precisions ≥ 53. -/
def rh_ei (p : ℕ) : ℤ := ⌊(wp p : ℚ) * d693⌋ + 10

/-- The branch test of `ei` (line 150): `xabs > rh` where
`xabs = abs(x.integer_part())`, i.e. `⌊|x|⌋`. -/
def ei_useAsymp (p : ℕ) (x : ℚ) : Bool := decide (rh_ei p < ⌊|x|⌋)

/-- The inflated Taylor working precision of `ei` (line 158):
`wp + 2*xabs`. -/
def ei_taylorPrec (p : ℕ) (x : ℚ) : ℕ := wp p + 2 * (⌊|x|⌋).toNat

/-- Public `ei(x)` (lines 144-159): computes `wp`, `xabs` and `rh`; if
`xabs > rh` it evaluates `ei_asymp` on a fresh copy of `x` at precision
`wp`, else `ei_taylor` on a fresh copy at precision `wp + 2*xabs` (the
final rounding back to `precision(x)` is modelled as exact).  Because both
branches pass the fresh copy `RF(x)`, the caller's `x` is untouched. -/
noncomputable def ei (p : ℕ) (x : ℚ) : Except Err ℝ :=
  if ei_useAsymp p x then ei_asymp_c (wp p) x
  else (ei_taylor_c (ei_taylorPrec p x) x).map Prod.fst

/-- Contents of the caller's `x` slot after `ei(x)` returns: `ei` hands the
engine the fresh copy `RF(x)` (lines 154 and 159), so the in-place
`mpfr_abs` of `ei_taylor_c` mutates the copy and the caller's slot still
holds `x`. -/
def ei_xafter (p : ℕ) (x : ℚ) : ℚ := x

/-! ### `incgamma_pint_c` (lines 70-107): Γ(n, x) for n > 0 -/

/-- The `incgamma_pint_c` loop: after `m` iterations (`j = 1 .. m`) returns
`(tmp, tmp2, tmp_fak)` where each iteration does `tmp2 := tmp2 * x / j;
tmp += tmp2; tmp_fak := tmp_fak * j`, starting from `(1, 1, 1)`. -/
noncomputable def pintLoop (x : ℝ) : ℕ → ℝ × ℝ × ℝ
  | 0 => (1, 1, 1)
  | j + 1 =>
    let t := pintLoop x j
    let tmp2 := t.2.1 * x / (j + 1)
    (t.1 + tmp2, tmp2, t.2.2 * (j + 1))

/-- `incgamma_pint_c(res, n, x)`: runs the loop for `j = 1 .. n-1`, then
`res = exp(-x) * (tmp * tmp_fak)`. -/
noncomputable def incgamma_pint_c (n : ℕ) (x : ℝ) : ℝ :=
  let t := pintLoop x (n - 1)
  Real.exp (-x) * (t.1 * t.2.2)

/-! ### `incgamma_nint_c` (lines 111-142): Γ(n, x) for n ≤ 0 -/

/-- The regime threshold computed in `incgamma_nint_c` (line 126):
`rh = ceil(wp*0.693) + 10` with the C `ceil` on the double product. -/
def rh_nint (p : ℕ) : ℤ := ⌈(wp p : ℚ) * d693⌉ + 10

/-- The branch test of `incgamma_nint_c` (line 127):
`mpfr_cmp_ui(xabs_t, rh) > 0`, i.e. `|x| > rh` as exact values. -/
def nint_useAsymp (p : ℕ) (x : ℚ) : Bool := decide ((rh_nint p : ℚ) < |x|)

/-- The inflated Taylor precision of `incgamma_nint_c` (lines 132-135):
`wp_t = wp + 2*|x|` read off with `mpfr_get_ui(wp_t, rnd_re)`, i.e. rounded
to the nearest integer, ties to even (the `wp`-bit addition is modelled as
exact). -/
def nint_taylorPrec (p : ℕ) (x : ℚ) : ℕ := (rndN ((wp p : ℚ) + 2 * |x|)).toNat

/-- `incgamma_nint_c(res, n, x)`: raises `NotImplementedError` for `n ≠ 0`.
For `n = 0`: if `|x| > rh` it runs `ei_asymp_c` on `xnew = -x` at precision
`wp` (the result slot keeps its precision `p`); otherwise it sets the
result slot's precision to `wp_t` (`mpfr_set_prec(res, ...)`, line 136) and
runs `ei_taylor_c` on `xnew = -x` at precision `wp_t`.  Finally the result
is negated (`Gamma(0,x) = -Ei(-x)`).  The returned pair is
`(precision of the result slot, value)`. -/
noncomputable def incgamma_nint_c (p : ℕ) (n : ℤ) (x : ℚ) : Except Err (ℕ × ℝ) :=
  if n ≠ 0 then Except.error Err.notImplemented
  else if nint_useAsymp p x then
    (ei_asymp_c (wp p) (-(x : ℝ))).map fun v => (p, -v)
  else
    (ei_taylor_c (nint_taylorPrec p x) (-x)).map fun v => (nint_taylorPrec p x, -v.1)

/-- Public `incgamma_int(n, x)` (lines 58-65): allocates
`res = x.parent()(0)` at `precision(x) = p` and dispatches on the sign of
`n`: `incgamma_pint_c` for `n > 0` (which never changes the slot's
precision), `incgamma_nint_c` otherwise. -/
noncomputable def incgamma_int (p : ℕ) (n : ℤ) (x : ℚ) : Except Err (ℕ × ℝ) :=
  if n > 0 then Except.ok (p, incgamma_pint_c n.toNat x)
  else incgamma_nint_c p n x

/-- The running term of the `Ei_ml_c` loop: `taylorTerm x k` is the value
of `tmp` after the iteration with counter `k` (`taylorTerm x 1 = x` is the
seed; each later iteration applies `tstep`). -/
def taylorTerm (x : ℚ) : ℕ → ℚ
  | 0 => 0
  | 1 => x
  | k + 2 => tstep x (k + 2) (taylorTerm x (k + 1))

/-! ## Helper lemmas -/

/-- The cumulative `_mppochammer_mpfr` loop product in closed form. -/
theorem pochProd_eq (a : ℝ) (m : ℕ) :
    pochProd a m = ∏ j ∈ Finset.range (m + 1), (a + j) := by
  induction m with
  | zero => simp [pochProd]
  | succ m ih =>
    rw [pochProd, ih, Finset.prod_range_succ _ (m + 1)]
    push_cast
    ring

/-- The loop counter left behind by `asympLoop` is at most
`k + fuel - 1`: the `range(1, nmax)` loop can never leave `k ≥ nmax`. -/
theorem asympLoop_snd_le (r eps : ℝ) :
    ∀ (fuel k : ℕ) (tmp summa : ℝ),
      (asympLoop r eps tmp summa k fuel).2 ≤ k + fuel - 1 := by
  intro fuel
  induction fuel with
  | zero => intro k tmp summa; simp [asympLoop]
  | succ fuel ih =>
    intro k tmp summa
    rw [asympLoop]
    split
    · simp
    · exact le_trans (ih (k + 1) _ _) (by omega)

/-- `ei_asymp_c` never reaches its `ArithmeticError` guard: the loop
variable is at most `nmax - 1` after the loop, so `k >= nmax` is dead. -/
theorem ei_asymp_c_ok (p : ℕ) (x : ℝ) : ∃ v, ei_asymp_c p x = Except.ok v := by
  unfold ei_asymp_c
  have h := asympLoop_snd_le (1 / x) |(2 : ℝ) ^ (-(p + 1 : ℤ)) / (Real.exp x * (1 / x))|
    (nmax - 1) 1 1 1
  rw [if_neg (by simp only [nmax] at h ⊢; omega)]
  exact ⟨_, rfl⟩

/-- The only error `Ei_ml_core` can produce is `ArithmeticError`. -/
theorem Ei_ml_core_error (p : ℕ) (x : ℚ) :
    ∀ e, Ei_ml_core p x = Except.error e → e = Err.arith := by
  intro e he
  simp only [Ei_ml_core] at he
  split at he
  · cases he; rfl
  · cases he

/-- For `k ≥ 2` the running term satisfies the loop recurrence. -/
theorem taylorTerm_succ (x : ℚ) (k : ℕ) (hk : 2 ≤ k) :
    taylorTerm x k = tstep x k (taylorTerm x (k - 1)) := by
  obtain ⟨m, rfl⟩ : ∃ m, k = m + 2 := ⟨k - 2, by omega⟩
  rfl

/-- Closed form of the running term: `x^k / (k * k!)`. -/
theorem taylorTerm_closed (x : ℚ) : ∀ k, 1 ≤ k →
    taylorTerm x k = x ^ k / (k * Nat.factorial k) := by
  intro k
  induction k with
  | zero => omega
  | succ k ih =>
    intro _
    rcases Nat.eq_zero_or_pos k with rfl | hk1
    · simp [taylorTerm, Nat.factorial]
    · rw [taylorTerm_succ x (k + 1) (by omega)]
      simp only [Nat.add_sub_cancel]
      rw [ih hk1]
      unfold tstep
      have hfk : (Nat.factorial k : ℚ) ≠ 0 := Nat.cast_ne_zero.mpr (Nat.factorial_ne_zero k)
      have hk0 : (k : ℚ) ≠ 0 := Nat.cast_ne_zero.mpr (by omega)
      have hk10 : ((k : ℚ) + 1) ≠ 0 := by positivity
      rw [Nat.factorial_succ]
      push_cast
      field_simp
      ring

/-- If no term in the remaining iterations meets the stopping bound, the
`Ei_ml_c` loop runs to exhaustion, accumulating every term and leaving the
counter at `k + fuel - 1`. -/
theorem taylorLoop_exhaust (x eps : ℚ) :
    ∀ (fuel k : ℕ), 2 ≤ k →
      (∀ j, k ≤ j → j < k + fuel → ¬|taylorTerm x j| < eps) →
      taylorLoop x eps (taylorTerm x (k - 1)) (∑ j ∈ Finset.Icc 1 (k - 1), taylorTerm x j) k fuel
        = (∑ j ∈ Finset.Icc 1 (k + fuel - 1), taylorTerm x j, k + fuel - 1) := by
  intro fuel
  induction fuel with
  | zero =>
    intro k hk _
    simp [taylorLoop]
  | succ fuel ih =>
    intro k hk hno
    rw [taylorLoop]
    have hstep : tstep x k (taylorTerm x (k - 1)) = taylorTerm x k :=
      (taylorTerm_succ x k hk).symm
    have hsum : (∑ j ∈ Finset.Icc 1 (k - 1), taylorTerm x j) + taylorTerm x k
        = ∑ j ∈ Finset.Icc 1 k, taylorTerm x j := by
      have h1 : k = (k - 1) + 1 := by omega
      rw [h1, Finset.sum_Icc_succ_top (by omega : 1 ≤ (k - 1) + 1), ← h1]
    rw [if_neg (by rw [hstep]; exact hno k (le_refl k) (by omega))]
    simp only [hstep, hsum]
    have hk1 : taylorTerm x k = taylorTerm x ((k + 1) - 1) := by
      simp only [Nat.add_sub_cancel]
    have hs1 : (∑ j ∈ Finset.Icc 1 k, taylorTerm x j)
        = ∑ j ∈ Finset.Icc 1 ((k + 1) - 1), taylorTerm x j := by
      simp only [Nat.add_sub_cancel]
    rw [hk1, hs1, ih (k + 1) (by omega) (fun j hj1 hj2 => hno j (by omega) (by omega))]
    have he : (k + 1) + fuel - 1 = k + (fuel + 1) - 1 := by omega
    rw [he]

/-- If the first index meeting the stopping bound is `K`, and `K` is
reached within the remaining iterations, the loop breaks there with the
partial sum up to `K`. -/
theorem taylorLoop_break (x eps : ℚ) :
    ∀ (fuel k K : ℕ), 2 ≤ k → k ≤ K → K < k + fuel →
      (∀ j, k ≤ j → j < K → ¬|taylorTerm x j| < eps) →
      |taylorTerm x K| < eps →
      taylorLoop x eps (taylorTerm x (k - 1)) (∑ j ∈ Finset.Icc 1 (k - 1), taylorTerm x j) k fuel
        = (∑ j ∈ Finset.Icc 1 K, taylorTerm x j, K) := by
  intro fuel
  induction fuel with
  | zero =>
    intro k K _ hkK hKlt _ _
    omega
  | succ fuel ih =>
    intro k K hk hkK hKlt hno hbr
    rw [taylorLoop]
    have hstep : tstep x k (taylorTerm x (k - 1)) = taylorTerm x k :=
      (taylorTerm_succ x k hk).symm
    have hsum : (∑ j ∈ Finset.Icc 1 (k - 1), taylorTerm x j) + taylorTerm x k
        = ∑ j ∈ Finset.Icc 1 k, taylorTerm x j := by
      have h1 : k = (k - 1) + 1 := by omega
      rw [h1, Finset.sum_Icc_succ_top (by omega : 1 ≤ (k - 1) + 1), ← h1]
    rcases Nat.eq_or_lt_of_le hkK with heq | hlt
    · subst heq
      rw [if_pos (by rw [hstep]; exact hbr)]
      simp only [hstep, hsum]
    · rw [if_neg (by rw [hstep]; exact hno k (le_refl k) hlt)]
      simp only [hstep, hsum]
      have hk1 : taylorTerm x k = taylorTerm x ((k + 1) - 1) := by
        simp only [Nat.add_sub_cancel]
      have hs1 : (∑ j ∈ Finset.Icc 1 k, taylorTerm x j)
          = ∑ j ∈ Finset.Icc 1 ((k + 1) - 1), taylorTerm x j := by
        simp only [Nat.add_sub_cancel]
      rw [hk1, hs1]
      exact ih (k + 1) K (by omega) hlt (by omega)
        (fun j hj1 hj2 => hno j (by omega) hj2) hbr

/-- Success characterization of `Ei_ml_core`: if the first index meeting
the bound is `K ≤ nmax - 1`, the result is the partial sum up to `K`. -/
theorem Ei_ml_core_ok (p : ℕ) (x : ℚ) (K : ℕ) (hK2 : 2 ≤ K) (hK : K ≤ nmax - 1)
    (hno : ∀ j, 2 ≤ j → j < K → ¬|taylorTerm x j| < teps p)
    (hbr : |taylorTerm x K| < teps p) :
    Ei_ml_core p x = Except.ok (∑ j ∈ Finset.Icc 1 K, taylorTerm x j) := by
  have hinit : taylorLoop x (teps p) x x 2 (nmax - 1)
      = (∑ j ∈ Finset.Icc 1 K, taylorTerm x j, K) := by
    have h2 := taylorLoop_break x (teps p) (nmax - 1) 2 K (le_refl 2) hK2
      (by simp only [nmax] at hK ⊢; omega) hno hbr
    simpa [taylorTerm, Finset.Icc_self] using h2
  simp only [Ei_ml_core, hinit]
  rw [if_neg (by simp only [nmax] at hK ⊢; omega)]

/-- Exhaustion characterization of `Ei_ml_core`: if no index up to `nmax`
meets the bound, the guard `k >= nmax` fires and the call errors. -/
theorem Ei_ml_core_exhaust (p : ℕ) (x : ℚ)
    (hno : ∀ j, 2 ≤ j → j ≤ nmax → ¬|taylorTerm x j| < teps p) :
    Ei_ml_core p x = Except.error Err.arith := by
  have hinit : taylorLoop x (teps p) x x 2 (nmax - 1)
      = (∑ j ∈ Finset.Icc 1 (2 + (nmax - 1) - 1), taylorTerm x j, 2 + (nmax - 1) - 1) := by
    have h2 := taylorLoop_exhaust x (teps p) (nmax - 1) 2 (le_refl 2)
      (fun j hj1 hj2 => hno j hj1 (by simp only [nmax] at hj2 ⊢; omega))
    simpa [taylorTerm, Finset.Icc_self] using h2
  simp only [Ei_ml_core, hinit]
  rw [if_pos (by simp only [nmax]; omega)]

/-- The stopping threshold as a positive power: `teps p = 1 / 2^(p+20)`. -/
theorem teps_eq (p : ℕ) : teps p = 1 / 2 ^ (p + 20) := by
  unfold teps
  rw [show (-(p + 20 : ℤ)) = -((p + 20 : ℕ) : ℤ) by push_cast; ring, zpow_neg, zpow_natCast]
  rw [one_div]

/-- The `incgamma_pint_c` loop state in closed form. -/
theorem pintLoop_eq (x : ℝ) (m : ℕ) :
    pintLoop x m = (1 + ∑ j ∈ Finset.Icc 1 m, x ^ j / (Nat.factorial j : ℝ),
      x ^ m / (Nat.factorial m : ℝ), (Nat.factorial m : ℝ)) := by
  induction m with
  | zero => simp [pintLoop, Nat.factorial]
  | succ m ih =>
    rw [pintLoop, ih]
    have hfm : (Nat.factorial m : ℝ) ≠ 0 := Nat.cast_ne_zero.mpr (Nat.factorial_ne_zero m)
    have hm1 : ((m : ℝ) + 1) ≠ 0 := by positivity
    have hterm : x ^ m / (Nat.factorial m : ℝ) * x / ((m : ℝ) + 1)
        = x ^ (m + 1) / (Nat.factorial (m + 1) : ℝ) := by
      rw [Nat.factorial_succ]
      push_cast
      field_simp
      ring
    simp only [Prod.mk.injEq]
    refine ⟨?_, by push_cast at hterm ⊢; exact hterm, ?_⟩
    · rw [Finset.sum_Icc_succ_top (by omega : 1 ≤ m + 1)]
      push_cast at hterm ⊢
      rw [← hterm]
      ring
    · rw [Nat.factorial_succ]
      push_cast
      ring

/-- Concrete evaluation `incgamma_pint_c(3, 1) = 5 * exp(-1)`. -/
theorem pint_three_one : incgamma_pint_c 3 1 = 5 * Real.exp (-1) := by
  unfold incgamma_pint_c
  rw [show (3 : ℕ) - 1 = 2 from rfl, pintLoop_eq]
  have hIcc : Finset.Icc 1 2 = ({1, 2} : Finset ℕ) := by decide
  rw [hIcc, Finset.sum_pair (by norm_num)]
  norm_num [Nat.factorial]
  ring

/-- Bounds for `5 * exp(-1) = Gamma(3,1)`. -/
theorem exp_neg_one_bounds : (1.83 : ℝ) < 5 * Real.exp (-1) ∧ 5 * Real.exp (-1) < 1.84 := by
  have h1 := Real.exp_one_gt_d9
  have h2 := Real.exp_one_lt_d9
  have hpos : (0 : ℝ) < Real.exp 1 := Real.exp_pos 1
  have h5 : 5 * (Real.exp 1)⁻¹ = 5 / Real.exp 1 := by ring
  rw [Real.exp_neg, h5]
  constructor
  · rw [lt_div_iff hpos]
    nlinarith
  · rw [div_lt_iff hpos]
    nlinarith

/-- The `incgamma_phint_c` sum-loop state in closed form: the running
power is `(-x)^j` and the sum collects `pochammer(1/2-n, n-j-1)*(-x)^j`. -/
theorem phintLoop_eq (hmn x : ℝ) (n : ℕ) : ∀ m,
    phintLoop hmn x n m
      = (∑ j ∈ Finset.range m, pochammer hmn ((n : ℤ) - j - 1) * (-x) ^ j, (-x) ^ m) := by
  intro m
  induction m with
  | zero => simp [phintLoop]
  | succ m ih =>
    rw [phintLoop, ih, Finset.sum_range_succ, pow_succ]
    simp only [Prod.mk.injEq]
    exact ⟨by ring, by ring⟩

/-- The odd product loop in closed form: `Π_{j=1}^{n} (2j-1)`. -/
theorem oddProd_eq : ∀ n, oddProd n = ∏ j ∈ Finset.Icc 1 n, (2 * (j : ℝ) - 1) := by
  intro n
  induction n with
  | zero => simp [oddProd]
  | succ n ih =>
    rw [oddProd, ih, Finset.prod_Icc_succ_top (by omega : 1 ≤ n + 1)]
    push_cast
    ring

/-- The odd product is positive (each factor `2j-1` with `j ≥ 1` is). -/
theorem oddProd_pos : ∀ n, (0 : ℝ) < oddProd n := by
  intro n
  induction n with
  | zero => norm_num [oddProd]
  | succ n ih =>
    rw [oddProd]
    have hn0 : (0 : ℝ) ≤ (n : ℝ) := Nat.cast_nonneg n
    have hf : (0 : ℝ) < 2 * ((n : ℝ) + 1) - 1 := by linarith
    exact mul_pos ih hf

/-- Below the wrap threshold the C `long` power is the exact power. -/
theorem pow2_si_eq (n : ℕ) (h : n ≤ 62) : pow2_si n = 2 ^ n := by
  unfold pow2_si
  have h1 : (2 : ℤ) ^ n ≤ 2 ^ 62 := pow_le_pow_right (by norm_num) h
  have h2 : (0 : ℤ) ≤ 2 ^ n + 2 ^ 63 := by positivity
  have h3 : (2 : ℤ) ^ n + 2 ^ 63 < 2 ^ 64 := by
    have e1 : (2 : ℤ) ^ 62 + 2 ^ 63 < 2 ^ 64 := by norm_num
    linarith
  rw [Int.emod_eq_of_lt h2 h3]
  ring

/-- At `n = 63` the C `long` power wraps to `-2^63`. -/
theorem pow2_si_63 : pow2_si 63 = -(2 ^ 63) := by
  unfold pow2_si
  norm_num

/-! ## Claim theorems -/

/-- C1: `ei_asymp_c` never raises the `ArithmeticError` it is supposed to
raise on non-convergence: the loop `for k in range(1, nmax)` leaves
`k ≤ nmax - 1`, so the guard `if k >= nmax` is dead code and the routine
silently returns the truncated partial sum for every input — in particular
at the failing input `x = 1` at 53-bit precision, where no term of the
divergent series `k!/x^k` ever drops below `eps`. -/
theorem C1_asymp_never_raises :
    (∀ (p : ℕ) (x : ℝ), ∃ v, ei_asymp_c p x = Except.ok v)
    ∧ ∃ v, ei_asymp_c 53 1 = Except.ok v :=
  ⟨ei_asymp_c_ok, ei_asymp_c_ok 53 1⟩

/-- C5: for every negative integer `n`, `incgamma_int(n, x)` fails
immediately with the `NotImplementedError`; for `n = 0` the only possible
error is the arithmetic (non-convergence) one, and the call reduces to
`-Ei(-x)` through the regime-selecting engine. -/
theorem C5_negative_not_implemented (p : ℕ) (n : ℤ) (x : ℚ) :
    (n < 0 → incgamma_int p n x = Except.error Err.notImplemented)
    ∧ (∀ e, incgamma_int p 0 x = Except.error e → e = Err.arith)
    ∧ (incgamma_int p 0 x =
        if nint_useAsymp p x then (ei_asymp_c (wp p) (-(x : ℝ))).map fun v => (p, -v)
        else (ei_taylor_c (nint_taylorPrec p x) (-x)).map
          fun v => (nint_taylorPrec p x, -v.1)) := by
  refine ⟨?_, ?_, ?_⟩
  · intro hneg
    unfold incgamma_int
    rw [if_neg (by omega)]
    unfold incgamma_nint_c
    rw [if_pos (by omega)]
  · intro e he
    unfold incgamma_int at he
    rw [if_neg (by omega)] at he
    unfold incgamma_nint_c at he
    rw [if_neg (by simp)] at he
    by_cases hb : nint_useAsymp p x = true
    · rw [if_pos hb] at he
      obtain ⟨v, hv⟩ := ei_asymp_c_ok (wp p) (-(x : ℝ))
      rw [hv] at he
      cases he
    · rw [if_neg hb] at he
      unfold ei_taylor_c Ei_ml_c at he
      rcases hcore : Ei_ml_core (nint_taylorPrec p x) (-x) with e2 | s
      · rw [hcore] at he
        cases he
        exact Ei_ml_core_error _ _ _ hcore
      · rw [hcore] at he
        cases he
  · unfold incgamma_int
    rw [if_neg (by omega)]
    unfold incgamma_nint_c
    rw [if_neg (by simp)]

/-- C5 witness: at `n = -1`, `x = 1`, 53-bit precision, the call fails with
the `NotImplementedError`. -/
theorem C5_negative_not_implemented_witness :
    incgamma_int 53 (-1) 1 = Except.error Err.notImplemented :=
  (C5_negative_not_implemented 53 (-1) 1).1 (by norm_num)

/-- C7: the `n = 0` branch of `incgamma_hint_c` performs the same sequence
of correctly-rounded primitive operations, at the same precision
`p = precision(x)`, as the shared helper `mpfr_sqpi_erfc_sqx`, so the two
call paths agree bit for bit for every implementation of the primitives;
at the exact level the public `incgamma_hint(0, x)` returns
`sqrt(pi) * erfc(sqrt(x))` at precision `p`. -/
theorem C7_hint_zero_bitwise :
    (∀ (P : MpfrPrims) (p : ℕ) (x : ℝ),
      incgamma_hint_zero_ops P p x = mpfr_sqpi_erfc_sqx_ops P p x)
    ∧ (∀ (erfc : ℝ → ℝ) (p : ℕ) (x : ℝ),
      incgamma_hint erfc p 0 x = (p, erfc (Real.sqrt x) * Real.sqrt Real.pi)) := by
  refine ⟨fun P p x => rfl, fun erfc p x => ?_⟩
  unfold incgamma_hint incgamma_hint_c
  norm_num

/-- C8 counterexample: `pochammer(2, -1)` is not rejected with a domain
error; the guard does not exist and the loop body never runs, so the call
silently returns the first factor `a = 2`. -/
theorem C8_cex : pochammer 2 (-1) = 2 := by
  unfold pochammer
  rw [if_neg (by norm_num)]
  rfl

/-- C8 (amended): for negative `k`, `pochammer(a, k)` silently returns `a`
(no rejection happens); `k = 0` returns `1` and `k > 0` returns the rising
factorial `a * (a+1) * ... * (a+k-1)`. -/
theorem C8_pochammer_negative (a : ℝ) (k : ℤ) :
    (k < 0 → pochammer a k = a)
    ∧ (k = 0 → pochammer a k = 1)
    ∧ (0 < k → pochammer a k = ∏ j ∈ Finset.range k.toNat, (a + j)) := by
  refine ⟨?_, ?_, ?_⟩
  · intro hk
    unfold pochammer
    rw [if_neg (by omega)]
    have h0 : (k - 1).toNat = 0 := by omega
    rw [h0]
    rfl
  · intro hk
    simp [pochammer, hk]
  · intro hk
    unfold pochammer
    rw [if_neg (by omega), pochProd_eq]
    have hk2 : (k - 1).toNat + 1 = k.toNat := by omega
    rw [hk2]

/-- C8 witness: `pochammer(2, 3) = 2 * 3 * 4 = 24`. -/
theorem C8_pochammer_negative_witness : pochammer 2 3 = 24 := by
  have h := (C8_pochammer_negative (2 : ℝ) 3).2.2 (by norm_num)
  rw [h, show (3 : ℤ).toNat = 3 from rfl]
  rw [Finset.prod_range_succ, Finset.prod_range_succ, Finset.prod_range_succ,
    Finset.prod_range_zero]
  norm_num

/-- C4: `Ei_ml_c` computes `Ei(x) - ln|x|` as the series
`Σ_{k≥1} x^k/(k*k!)` via the running recurrence seeded with `x`, stopping
as soon as the current term's magnitude drops below `2^-(p+20)`, then adds
the Euler–Mascheroni constant; the caller `ei_taylor_c` adds `ln|x|` back;
if no term up to the iteration ceiling meets the bound, the call raises
`ArithmeticError`. -/
theorem C4_taylor_series (p : ℕ) (x : ℚ) :
    (∀ k, 1 ≤ k → taylorTerm x k = x ^ k / (k * Nat.factorial k))
    ∧ (∀ K, 2 ≤ K → K ≤ nmax - 1 →
        (∀ j, 2 ≤ j → j < K → ¬|taylorTerm x j| < teps p) →
        |taylorTerm x K| < teps p →
        Ei_ml_c p x = Except.ok
          (((∑ j ∈ Finset.Icc 1 K, taylorTerm x j : ℚ) : ℝ)
            + Real.eulerMascheroniConstant))
    ∧ ((∀ k, 2 ≤ k → k ≤ nmax → ¬|taylorTerm x k| < teps p) →
        Ei_ml_c p x = Except.error Err.arith)
    ∧ (∀ v, Ei_ml_c p x = Except.ok v →
        ei_taylor_c p x = Except.ok (v + Real.log |(x : ℝ)|, |x|)) := by
  refine ⟨taylorTerm_closed x, ?_, ?_, ?_⟩
  · intro K hK2 hK hno hbr
    unfold Ei_ml_c
    rw [Ei_ml_core_ok p x K hK2 hK hno hbr]
    rfl
  · intro hno
    unfold Ei_ml_c
    rw [Ei_ml_core_exhaust p x hno]
    rfl
  · intro v hv
    unfold ei_taylor_c
    rw [hv]
    rfl

/-- C4 witness: at `x = 0` and 53-bit precision, the term at `k = 2` is `0`
and already meets the bound, so the loop stops there and the result is the
partial sum plus the Euler–Mascheroni constant. -/
theorem C4_taylor_series_witness :
    Ei_ml_c 53 0 = Except.ok
      (((∑ j ∈ Finset.Icc 1 2, taylorTerm 0 j : ℚ) : ℝ)
        + Real.eulerMascheroniConstant) := by
  refine (C4_taylor_series 53 0).2.1 2 (le_refl 2) (by norm_num [nmax])
    (fun j hj1 hj2 => absurd (lt_of_le_of_lt hj1 hj2) (lt_irrefl 2)) ?_
  have h2 : taylorTerm 0 2 = 0 := by
    simp [taylorTerm, tstep]
  rw [h2]
  simp only [abs_zero, teps]
  positivity

/-- At 53-bit input precision (`wp = 73`) and `x = 61` the `ei` branch
test succeeds: `⌊|61|⌋ = 61 > ⌊73 * 0.693⌋ + 10 = 60`. -/
theorem ei_useAsymp_53_61 : ei_useAsymp 53 61 = true := by
  simp only [ei_useAsymp, rh_ei, decide_eq_true_eq]
  have hf : ⌊(wp 53 : ℚ) * d693⌋ = 50 := by norm_num [wp, d693]
  rw [hf]
  norm_num

/-- C2 counterexample: at 53-bit precision (`wp = 73`) and `x = 61`, the
public `ei` takes the asymptotic branch (its threshold is the truncation
`floor(0.693*wp) + 10 = 60`), although the claimed rule
`|x| > ceil(0.693*wp) + 10 = 61` says the Taylor branch should be taken. -/
theorem C2_cex :
    ei_useAsymp 53 61 = true ∧ ¬((61 : ℤ) > ⌈(693 : ℚ) * 73 / 1000⌉ + 10) := by
  refine ⟨ei_useAsymp_53_61, ?_⟩
  have hc : ⌈(693 : ℚ) * 73 / 1000⌉ = 51 := by
    rw [Int.ceil_eq_iff]
    norm_num
  rw [hc]
  norm_num

/-- C2 (amended): `wp = p + 20`; the public `ei` selects the asymptotic
expansion exactly when `⌊|x|⌋ > ⌊0.693*wp⌋ + 10` (truncation, not
ceiling, with `0.693` the 53-bit double constant), running it at precision
`wp`, and otherwise runs the Taylor branch at precision `wp + 2*⌊|x|⌋`;
the `Gamma(0,x) = -Ei(-x)` path instead compares `|x| > ⌈0.693*wp⌉ + 10`
and runs its Taylor branch at precision `wp + 2*|x|` rounded to the
nearest integer. -/
theorem C2_regime (p : ℕ) (x : ℚ) :
    (wp p = p + 20)
    ∧ (ei_useAsymp p x = true ↔ ⌊(wp p : ℚ) * d693⌋ + 10 < ⌊|x|⌋)
    ∧ (ei_useAsymp p x = true → ei p x = ei_asymp_c (wp p) x)
    ∧ (ei_useAsymp p x = false →
        ei p x = (ei_taylor_c (wp p + 2 * (⌊|x|⌋).toNat) x).map Prod.fst)
    ∧ (nint_useAsymp p x = true ↔ ((⌈(wp p : ℚ) * d693⌉ : ℚ) + 10 < |x|))
    ∧ (nint_useAsymp p x = true →
        incgamma_int p 0 x = (ei_asymp_c (wp p) (-(x : ℝ))).map fun v => (p, -v))
    ∧ (nint_useAsymp p x = false →
        incgamma_int p 0 x =
          (ei_taylor_c ((rndN ((wp p : ℚ) + 2 * |x|)).toNat) (-x)).map
            fun v => ((rndN ((wp p : ℚ) + 2 * |x|)).toNat, -v.1)) := by
  refine ⟨rfl, ?_, ?_, ?_, ?_, ?_, ?_⟩
  · simp only [ei_useAsymp, rh_ei, decide_eq_true_eq]
  · intro h
    simp [ei, h]
  · intro h
    simp [ei, h, ei_taylorPrec]
  · simp only [nint_useAsymp, rh_nint, decide_eq_true_eq]
    constructor
    · intro h
      push_cast at h ⊢
      exact h
    · intro h
      push_cast at h ⊢
      exact h
  · intro h
    unfold incgamma_int incgamma_nint_c
    rw [if_neg (by omega), if_neg (by simp), if_pos h]
  · intro h
    unfold incgamma_int incgamma_nint_c
    rw [if_neg (by omega), if_neg (by simp), if_neg (by simp [h])]
    rfl

/-- C2 witness: at 53-bit precision and `x = 61` the asymptotic branch is
taken at working precision `wp = 73`. -/
theorem C2_regime_witness : ei 53 61 = ei_asymp_c 73 61 :=
  (C2_regime 53 61).2.2.1 ei_useAsymp_53_61

/-- C3 counterexample: the claim's own closed-form value
`2*exp(-1)*(1+1+0.5)` — which is what `incgamma_int(3, 1.0)` computes — is
greater than `3/2`, hence nowhere near the claimed `0.8609`. -/
theorem C3_cex :
    incgamma_pint_c 3 1 = 2 * Real.exp (-1) * (1 + 1 + 1 / 2)
    ∧ (3 / 2 : ℝ) < 2 * Real.exp (-1) * (1 + 1 + 1 / 2) := by
  have h : (2 : ℝ) * Real.exp (-1) * (1 + 1 + 1 / 2) = 5 * Real.exp (-1) := by ring
  refine ⟨by rw [pint_three_one]; ring, ?_⟩
  rw [h]
  linarith [exp_neg_one_bounds.1]

/-- C3 (amended): for `n ≥ 1` and `x > 0`, `incgamma_int(n, x)` returns
`exp(-x) * (n-1)! * (1 + Σ_{j=1}^{n-1} x^j/j!)`; at `n = 3`, `x = 1` the
value is `2*exp(-1)*(1+1+0.5) = 5/e ≈ 1.8394` (not `0.8609`). -/
theorem C3_pint_closed_form (p : ℕ) (n : ℤ) (x : ℚ) (y : ℝ) (hn : 1 ≤ n) (hy : 0 < y) :
    (incgamma_pint_c n.toNat y = Real.exp (-y) * ((Nat.factorial (n.toNat - 1) : ℝ)
        * (1 + ∑ j ∈ Finset.Icc 1 (n.toNat - 1), y ^ j / (Nat.factorial j : ℝ))))
    ∧ (incgamma_int p n x = Except.ok (p, incgamma_pint_c n.toNat x))
    ∧ (incgamma_pint_c 3 1 = 2 * Real.exp (-1) * (1 + 1 + 1 / 2))
    ∧ ((1.83 : ℝ) < incgamma_pint_c 3 1 ∧ incgamma_pint_c 3 1 < 1.84) := by
  refine ⟨?_, ?_, ?_, ?_⟩
  · unfold incgamma_pint_c
    rw [pintLoop_eq]
    ring
  · unfold incgamma_int
    rw [if_pos (by omega)]
  · rw [pint_three_one]
    ring
  · rw [pint_three_one]
    exact exp_neg_one_bounds

/-- C3 witness: the closed form at `n = 3`, `x = 1`. -/
theorem C3_pint_closed_form_witness :
    incgamma_pint_c 3 1 = Real.exp (-1) * ((Nat.factorial 2 : ℝ)
      * (1 + ∑ j ∈ Finset.Icc 1 2, (1 : ℝ) ^ j / (Nat.factorial j : ℝ))) := by
  have h := (C3_pint_closed_form 53 3 1 1 (by norm_num) (by norm_num)).1
  exact h

/-- C6 counterexample: at `n = 63` (with `erfc` instantiated as the
constant-1 primitive and `x = 1`) the divisor `2**n` handed to
`mpfr_div_si` has wrapped to `-2^63` in C `long` arithmetic, so
`incgamma_phint_c` does not return the claimed closed form with its
division by the exact `2^63`. -/
theorem C6_cex :
    incgamma_phint_c (fun _ => 1) 63 1 ≠
      (∏ j ∈ Finset.Icc (1 : ℕ) 63, (2 * (j : ℝ) - 1)) * (Real.sqrt Real.pi * 1) / 2 ^ 63
        + (if 63 % 2 = 0 then (-1 : ℝ) else 1) * (Real.exp (-1) * Real.sqrt 1)
          * (∑ j ∈ Finset.range 63,
              pochammer (1 / 2 - ((63 : ℕ) : ℝ)) (((63 : ℕ) : ℤ) - j - 1) * (-1) ^ j) := by
  intro heq
  have hp : (0 : ℝ) < oddProd 63 := oddProd_pos 63
  have hpi : (0 : ℝ) < Real.sqrt Real.pi := Real.sqrt_pos.mpr Real.pi_pos
  have hPQ : (0 : ℝ) < oddProd 63 * Real.sqrt Real.pi := mul_pos hp hpi
  simp only [incgamma_phint_c, mpfr_sqpi_erfc_sqx] at heq
  rw [phintLoop_eq, ← oddProd_eq, pow2_si_63] at heq
  norm_num at heq
  nlinarith [heq, hPQ]

/-- C6 (amended): for `1 ≤ n ≤ 62` — so that the C `long` evaluation of
`2**n` passed to `mpfr_div_si` has not wrapped — and `x > 0`,
`incgamma_phint_c(n, x)` equals
`[Π_{j=1}^{n}(2j-1)] * sqrt(pi)*erfc(sqrt(x)) / 2^n
 + s * exp(-x) * sqrt(x) * Σ_{j=0}^{n-1} pochammer(1/2-n, n-j-1)*(-x)^j`
with `s = -1` for even `n` and `+1` for odd `n` — a finite exact
composition with no convergence loop.  For `n ≥ 63` the divisor wraps
(`-2^63` at `n = 63`, `0` beyond) and the formula fails. -/
theorem C6_phint_closed_form (erfc : ℝ → ℝ) (n : ℕ) (x : ℝ) (hn : 1 ≤ n) (hn62 : n ≤ 62)
    (hx : 0 < x) :
    incgamma_phint_c erfc n x =
      (∏ j ∈ Finset.Icc 1 n, (2 * (j : ℝ) - 1)) * (Real.sqrt Real.pi * erfc (Real.sqrt x))
          / 2 ^ n
        + (if n % 2 = 0 then (-1 : ℝ) else 1) * (Real.exp (-x) * Real.sqrt x)
          * (∑ j ∈ Finset.range n, pochammer (1 / 2 - (n : ℝ)) ((n : ℤ) - j - 1) * (-x) ^ j) := by
  simp only [incgamma_phint_c, mpfr_sqpi_erfc_sqx]
  rw [phintLoop_eq, oddProd_eq, pow2_si_eq n hn62]
  push_cast
  by_cases h : n % 2 = 0
  · rw [if_pos h, if_pos h]
    ring
  · rw [if_neg h, if_neg h]
    ring

/-- C6 witness: the closed form at `n = 1`, `x = 1`, with the external
`erfc` primitive instantiated by the identity function. -/
theorem C6_phint_closed_form_witness :
    incgamma_phint_c (fun r => r) 1 1 =
      (∏ j ∈ Finset.Icc (1 : ℕ) 1, (2 * (j : ℝ) - 1)) * (Real.sqrt Real.pi * Real.sqrt 1) / 2 ^ 1
        + (if 1 % 2 = 0 then (-1 : ℝ) else 1) * (Real.exp (-1) * Real.sqrt 1)
          * (∑ j ∈ Finset.range 1,
              pochammer (1 / 2 - ((1 : ℕ) : ℝ)) (((1 : ℕ) : ℤ) - j - 1) * (-1) ^ j) :=
  C6_phint_closed_form (fun r => r) 1 1 (le_refl 1) (by norm_num) one_pos

/-- C9 counterexample: at 53-bit precision, `incgamma_int(0, 2^-50)` takes
the `Gamma(0,x)` Taylor path, which calls `mpfr_set_prec(res, wp + 2|x|)`
(line 136) and never restores it, so the returned value carries precision
73, not the input precision 53. -/
theorem C9_cex :
    (incgamma_int 53 0 (1 / 2 ^ 50)).map Prod.fst = Except.ok 73 ∧ (73 : ℕ) ≠ 53 := by
  have habs50 : |(1 / 2 ^ 50 : ℚ)| = 1 / 2 ^ 50 := abs_of_pos (by positivity)
  have hceil : ⌈(wp 53 : ℚ) * d693⌉ = 51 := by
    rw [Int.ceil_eq_iff]
    norm_num [wp, d693]
  have hb : nint_useAsymp 53 (1 / 2 ^ 50) = false := by
    simp only [nint_useAsymp, decide_eq_false_iff_not, not_lt, rh_nint, hceil]
    rw [habs50]
    norm_num
  have hq : nint_taylorPrec 53 (1 / 2 ^ 50) = 73 := by
    have h1 : ((wp 53 : ℕ) : ℚ) + 2 * |(1 / 2 ^ 50 : ℚ)| = 73 + 2 / 2 ^ 50 := by
      rw [habs50]
      norm_num [wp]
    unfold nint_taylorPrec rndN
    rw [h1]
    have hfl : ⌊(73 + 2 / 2 ^ 50 : ℚ)⌋ = 73 := by norm_num
    rw [if_neg (by rw [hfl]; norm_num), round_eq]
    norm_num
    rfl
  have ht2 : taylorTerm (-(1 / 2 ^ 50 : ℚ)) 2 = 1 / 2 ^ 102 := by
    show tstep (-(1 / 2 ^ 50 : ℚ)) 2 (-(1 / 2 ^ 50 : ℚ)) = 1 / 2 ^ 102
    unfold tstep
    norm_num
  have hcore : Ei_ml_core 73 (-(1 / 2 ^ 50)) =
      Except.ok (∑ j ∈ Finset.Icc 1 2, taylorTerm (-(1 / 2 ^ 50)) j) := by
    refine Ei_ml_core_ok 73 _ 2 (le_refl 2) (by norm_num [nmax])
      (fun j h1 h2 => absurd (lt_of_le_of_lt h1 h2) (lt_irrefl 2)) ?_
    rw [ht2, teps_eq]
    rw [abs_of_pos (by positivity)]
    norm_num
  refine ⟨?_, by norm_num⟩
  unfold incgamma_int incgamma_nint_c
  rw [if_neg (by omega), if_neg (by simp), if_neg (by rw [hb]; exact Bool.false_ne_true), hq]
  unfold ei_taylor_c Ei_ml_c
  rw [hcore]
  rfl

/-- C9 (amended): the result of the incomplete Gamma entry points carries
the precision of `x` for every integer `n > 0`, for every half-integer
parameter, and for `n = 0` on the asymptotic branch; but on the
`Gamma(0,x)` Taylor branch (`|x| ≤ rh`) the result instead carries the
inflated precision `round(wp + 2|x|)`. -/
theorem C9_result_precision (p : ℕ) (n : ℤ) (x : ℚ) (erfc : ℝ → ℝ) (y : ℝ) :
    (0 < n → (incgamma_int p n x).map Prod.fst = Except.ok p)
    ∧ ((incgamma_hint erfc p n y).1 = p)
    ∧ (n = 0 → nint_useAsymp p x = true →
        (incgamma_int p n x).map Prod.fst = Except.ok p)
    ∧ (n = 0 → nint_useAsymp p x = false →
        ∀ q v, incgamma_int p n x = Except.ok (q, v) →
          q = (rndN ((wp p : ℚ) + 2 * |x|)).toNat) := by
  refine ⟨?_, rfl, ?_, ?_⟩
  · intro hn
    unfold incgamma_int
    rw [if_pos hn]
    rfl
  · rintro rfl hb
    unfold incgamma_int incgamma_nint_c
    rw [if_neg (by omega), if_neg (by simp), if_pos hb]
    obtain ⟨v, hv⟩ := ei_asymp_c_ok (wp p) (-(x : ℝ))
    rw [hv]
    rfl
  · rintro rfl hb q v hqv
    unfold incgamma_int incgamma_nint_c at hqv
    rw [if_neg (by omega), if_neg (by simp), if_neg (by simp [hb])] at hqv
    rcases ht : ei_taylor_c (nint_taylorPrec p x) (-x) with e | w
    · rw [ht] at hqv
      cases hqv
    · rw [ht] at hqv
      cases hqv
      rfl

/-- C9 witness: for `n = 3 > 0` the result keeps the input precision. -/
theorem C9_result_precision_witness :
    (incgamma_int 53 3 1).map Prod.fst = Except.ok 53 :=
  (C9_result_precision 53 3 1 (fun r => r) 1).1 (by norm_num)

/-- C10: `ei_taylor(x)` passes the caller's `x` slot into `ei_taylor_c`,
whose `mpfr_abs(x, x)` overwrites it with `|x|` (so a negative argument is
changed), while the public `ei` passes the fresh copy `RF(x)` and leaves
the caller's `x` unchanged. -/
theorem C10_ei_taylor_mutates (p : ℕ) (x : ℚ) :
    (∀ r xa, ei_taylor p x = Except.ok (r, xa) → xa = |x|)
    ∧ (x < 0 → ∀ r xa, ei_taylor p x = Except.ok (r, xa) → xa ≠ x)
    ∧ ei_xafter p x = x := by
  have h1 : ∀ r xa, ei_taylor p x = Except.ok (r, xa) → xa = |x| := by
    intro r xa h
    unfold ei_taylor ei_taylor_c at h
    rcases hc : Ei_ml_c p x with e | v
    · rw [hc] at h
      cases h
    · rw [hc] at h
      cases h
      rfl
  refine ⟨h1, ?_, rfl⟩
  intro hx r xa h
  rw [h1 r xa h]
  intro habs
  rw [abs_of_neg hx] at habs
  linarith

/-- C10 witness: at `x = -2^-100` the Taylor loop converges at `k = 2`, the
call succeeds, and the caller's slot afterwards holds `|x| = 2^-100 ≠ x`. -/
theorem C10_ei_taylor_mutates_witness :
    ∃ r xa, ei_taylor 53 (-(1 / 2 ^ 100)) = Except.ok (r, xa)
      ∧ xa = |(-(1 / 2 ^ 100) : ℚ)| ∧ xa ≠ -(1 / 2 ^ 100) := by
  have ht2 : taylorTerm (-(1 / 2 ^ 100 : ℚ)) 2 = 1 / 2 ^ 202 := by
    show tstep (-(1 / 2 ^ 100 : ℚ)) 2 (-(1 / 2 ^ 100 : ℚ)) = 1 / 2 ^ 202
    unfold tstep
    norm_num
  have hcore : Ei_ml_core 53 (-(1 / 2 ^ 100)) =
      Except.ok (∑ j ∈ Finset.Icc 1 2, taylorTerm (-(1 / 2 ^ 100)) j) := by
    refine Ei_ml_core_ok 53 _ 2 (le_refl 2) (by norm_num [nmax])
      (fun j h1 h2 => absurd (lt_of_le_of_lt h1 h2) (lt_irrefl 2)) ?_
    rw [ht2, teps_eq]
    rw [abs_of_pos (by positivity)]
    norm_num
  have hok : ei_taylor 53 (-(1 / 2 ^ 100)) = Except.ok
      (((∑ j ∈ Finset.Icc 1 2, taylorTerm (-(1 / 2 ^ 100)) j : ℚ) : ℝ)
          + Real.eulerMascheroniConstant + Real.log |((-(1 / 2 ^ 100) : ℚ) : ℝ)|,
        |(-(1 / 2 ^ 100) : ℚ)|) := by
    unfold ei_taylor ei_taylor_c Ei_ml_c
    rw [hcore]
    rfl
  exact ⟨_, _, hok, (C10_ei_taylor_mutates 53 _).1 _ _ hok,
    (C10_ei_taylor_mutates 53 _).2.1 (by norm_num) _ _ hok⟩

end IncGamma
